import Mathlib

/-!
Shallow embedding of `src/solve.js`: exact BigInt fractions, a base-2..36
decoder, Lagrange interpolation at x = 0, and the point-collection /
selection pipeline of `main`.  JavaScript `BigInt` is modelled as `Int`
(`/` on BigInt truncates toward zero, hence `Int.tdiv`; `%` takes the sign
of the dividend, hence `Int.tmod`).  Thrown `Error`s are modelled as the
`Except JsError` monad, with one constructor per distinct `throw` site.
-/

/-- The distinct failure kinds raised by `solve.js` (one per `throw` site in
the core, plus the `k <= 0` validation and the insufficient-points exit of
`main`). -/
inductive JsError where
  | denominatorZero
  | divisionByZeroFraction
  | unsupportedBase (base : Int)
  | invalidDigit (ch : Char)
  | digitOutOfRange (ch : Char) (base : Int)
  | duplicateXValues
  | invalidKeys
  | notEnoughPoints (got : Nat) (need : Int)
  | nonIntegerResult (s : String)
deriving DecidableEq

/-- The `while (b !== 0n)` loop body of `bigGcd` in `solve.js`
(`t = a % b; a = b; b = t`), run on the absolute values; the fuel argument
only makes the recursion structural and is chosen large enough below. -/
def bigGcdAux (fuel : Nat) (a b : Nat) : Nat :=
  match fuel with
  | 0 => a
  | fuel + 1 => if b = 0 then a else bigGcdAux fuel b (a % b)

/-- `bigGcd` from `solve.js`: take absolute values, then run the Euclidean
`while` loop. -/
def bigGcd (a b : Int) : Int :=
  Int.ofNat (bigGcdAux (a.natAbs + b.natAbs + 1) a.natAbs b.natAbs)

/-- The `Fraction` class of `solve.js`: the two BigInt fields `num` and
`den` as stored by the constructor. -/
structure Fraction where
  num : Int
  den : Int
deriving DecidableEq

/-- The `Fraction` constructor: reject a zero denominator, move the sign to
the numerator, divide both components by their gcd (JS BigInt `/` truncates,
hence `tdiv`; the divisions are exact so the convention does not matter). -/
def Fraction.make (num den : Int) : Except JsError Fraction :=
  if den = 0 then .error .denominatorZero
  else
    let num' := if den < 0 then -num else num
    let den' := if den < 0 then -den else den
    let g := bigGcd num' den'
    .ok ⟨num'.tdiv g, den'.tdiv g⟩

/-- `Fraction.prototype.add`. -/
def Fraction.add (a b : Fraction) : Except JsError Fraction :=
  Fraction.make (a.num * b.den + b.num * a.den) (a.den * b.den)

/-- `Fraction.prototype.sub`. -/
def Fraction.sub (a b : Fraction) : Except JsError Fraction :=
  Fraction.make (a.num * b.den - b.num * a.den) (a.den * b.den)

/-- `Fraction.prototype.mul`. -/
def Fraction.mul (a b : Fraction) : Except JsError Fraction :=
  Fraction.make (a.num * b.num) (a.den * b.den)

/-- `Fraction.prototype.div`. -/
def Fraction.div (a b : Fraction) : Except JsError Fraction :=
  if b.num = 0 then .error .divisionByZeroFraction
  else Fraction.make (a.num * b.den) (a.den * b.num)

/-- `Fraction.prototype.toString`: decimal numerator, and `"num/den"` when
the denominator is not 1 (Lean's `toString` on `Int` renders exactly like
JS `BigInt.prototype.toString`). -/
def Fraction.toStr (f : Fraction) : String :=
  if f.den = 1 then toString f.num
  else toString f.num ++ "/" ++ toString f.den

/-- `Fraction.prototype.toIntegerStringIfExact`: the integer value as a
decimal string when `den = 1` or `den` divides `num` evenly, otherwise the
"Result is not integer" error carrying `toString()` of the fraction. -/
def Fraction.toIntegerStringIfExact (f : Fraction) : Except JsError String :=
  if f.den = 1 then .ok (toString f.num)
  else if f.num.tmod f.den = 0 then .ok (toString (f.num.tdiv f.den))
  else .error (.nonIntegerResult f.toStr)

deriving instance DecidableEq for Except

/-- The whitespace class removed by JS `String.prototype.trim` (ASCII
whitespace plus the Unicode space separators relevant here). -/
def isJsWhitespace (c : Char) : Bool :=
  c = ' ' || c = '\t' || c = '\n' || c = '\r' || c = '\x0b' || c = '\x0c' ||
    c = '\u00A0' || c = '\u2028' || c = '\u2029' || c = '\uFEFF'

/-- JS `String.prototype.trim` on the character list: drop whitespace from
both ends. -/
def jsTrim (cs : List Char) : List Char :=
  ((cs.dropWhile isJsWhitespace).reverse.dropWhile isJsWhitespace).reverse

/-- JS `String.prototype.toLowerCase`, characterwise (the strings involved
are ASCII, where `Char.toLower` agrees with JS). -/
def jsToLower (cs : List Char) : List Char :=
  cs.map Char.toLower

/-- The `for (let ch of s)` loop of `decodeValueToBigInt`: classify each
character ('0'-'9' gives code − 48, 'a'-'z' gives code − 87, anything else
is an invalid digit), reject digit values `≥ base`, and accumulate
`acc = acc * base + digit`. -/
def decodeDigits (base : Int) : List Char → Int → Except JsError Int
  | [], acc => .ok acc
  | ch :: rest, acc =>
    if '0' ≤ ch ∧ ch ≤ '9' then
      let d : Int := (ch.toNat : Int) - 48
      if base ≤ d then .error (.digitOutOfRange ch base)
      else decodeDigits base rest (acc * base + d)
    else if 'a' ≤ ch ∧ ch ≤ 'z' then
      let d : Int := (ch.toNat : Int) - 87
      if base ≤ d then .error (.digitOutOfRange ch base)
      else decodeDigits base rest (acc * base + d)
    else .error (.invalidDigit ch)

/-- `decodeValueToBigInt` from `solve.js`.  The JS function receives the
base as a string and converts it with `Number(baseStr)`; that host-library
conversion is outside the embedding, so the base arrives here already as an
integer and the `Number.isInteger` part of the guard holds by type.  After
the range guard the value string is trimmed, lower-cased and folded over. -/
def decodeValueToBigInt (valueStr : String) (base : Int) : Except JsError Int :=
  if ¬(2 ≤ base ∧ base ≤ 36) then .error (.unsupportedBase base)
  else
    let s := jsToLower (jsTrim valueStr.toList)
    decodeDigits base s 0

/-- `points[i].x` (with the irrelevant out-of-range default `(0, 0)`). -/
def ptX (pts : List (Int × Int)) (i : Nat) : Int :=
  (pts.getD i (0, 0)).1

/-- `points[i].y`. -/
def ptY (pts : List (Int × Int)) (i : Nat) : Int :=
  (pts.getD i (0, 0)).2

/-- The inner `for (let j ...)` loop of `lagrangeAtZero`: skip `j === i`,
fail on a zero denominator `x_i - x_j`, otherwise multiply the accumulator
by `Fraction(-x_j, x_i - x_j)`; `js` is the list of remaining values of the
loop counter `j`. -/
def lagrangeInner (pts : List (Int × Int)) (i : Nat) :
    List Nat → Fraction → Except JsError Fraction
  | [], numer => .ok numer
  | j :: js, numer =>
    if j = i then lagrangeInner pts i js numer
    else
      let negXj := -(ptX pts j)
      let denom := ptX pts i - ptX pts j
      if denom = 0 then .error .duplicateXValues
      else
        match Fraction.make negXj denom with
        | .error e => .error e
        | .ok fr =>
          match numer.mul fr with
          | .error e => .error e
          | .ok numer' => lagrangeInner pts i js numer'

/-- The outer `for (let i ...)` loop of `lagrangeAtZero`: start the term at
`Fraction(y_i, 1)`, run the inner loop over all indices, and add the term
into the running sum. -/
def lagrangeOuter (pts : List (Int × Int)) :
    List Nat → Fraction → Except JsError Fraction
  | [], result => .ok result
  | i :: is, result =>
    match Fraction.make (ptY pts i) 1 with
    | .error e => .error e
    | .ok start =>
      match lagrangeInner pts i (List.range pts.length) start with
      | .error e => .error e
      | .ok term =>
        match result.add term with
        | .error e => .error e
        | .ok result' => lagrangeOuter pts is result'

/-- `lagrangeAtZero` from `solve.js`: the double loop over `0..k-1` with the
running sum started at `new Fraction(0n, 1n)`. -/
def lagrangeAtZero (pts : List (Int × Int)) : Except JsError Fraction :=
  match Fraction.make 0 1 with
  | .error e => .error e
  | .ok init => lagrangeOuter pts (List.range pts.length) init

/-- A non-metadata mapping entry of the input object, as `main` sees it
after JSON parsing: the `base` and `value` fields may each be absent.
`base` is kept as the integer that `Number(String(obj.base))` produces and
`value` as the string `String(obj.value)` — those two host conversions are
outside the embedding. -/
structure RawObj where
  base : Option Int
  value : Option String
deriving DecidableEq

/-- One iteration of the collection loop of `main` for the entry with label
`x`: a `none` object (not an object / null) or a missing `base` or `value`
field is skipped (`.ok none`), otherwise the value is decoded and the point
`(x, y)` is produced; decode failures propagate. -/
def processEntry (x : Int) (obj : Option RawObj) : Except JsError (Option (Int × Int)) :=
  match obj with
  | none => .ok none
  | some o =>
    match o.base, o.value with
    | some b, some v =>
      match decodeValueToBigInt v b with
      | .error e => .error e
      | .ok y => .ok (some (x, y))
    | _, _ => .ok none

/-- The collection loop of `main` over all non-`keys` entries, in object
iteration order, keeping the produced points in that order. -/
def collectEntries : List (Int × Option RawObj) → Except JsError (List (Int × Int))
  | [] => .ok []
  | (x, obj) :: rest =>
    match processEntry x obj with
    | .error e => .error e
    | .ok r =>
      match collectEntries rest with
      | .error e => .error e
      | .ok rest' =>
        match r with
        | none => .ok rest'
        | some pt => .ok (pt :: rest')

/-- Stable insertion of a point into an already `x`-sorted list: the new
point goes after every point whose `x` is `≤` its own, which is exactly the
order a stable sort with the comparator `(a, b) => a.x < b.x ? -1 : ...`
produces. -/
def insertByX (e : Int × Int) : List (Int × Int) → List (Int × Int)
  | [] => [e]
  | f :: fs => if f.1 ≤ e.1 then f :: insertByX e fs else e :: f :: fs

/-- The `entries.sort(...)` call of `main`: a stable sort by ascending `x`
(JS `Array.prototype.sort` is stable, and the comparator orders by `x`). -/
def jsSortByX (l : List (Int × Int)) : List (Int × Int) :=
  l.foldl (fun acc e => insertByX e acc) []

/-- The core pipeline of `main` after JSON parsing: validate `k` (the code
exits when `k <= 0`; `n` is validated to be an integer, which holds by type
here, and is never used afterwards), collect the points, fail when fewer
than `k` usable points were collected, sort by ascending `x`, take the
first `k`, interpolate at zero and extract the exact integer. -/
def mainCompute (n k : Int) (raw : List (Int × Option RawObj)) : Except JsError String :=
  if k ≤ 0 then .error .invalidKeys
  else
    match collectEntries raw with
    | .error e => .error e
    | .ok entries =>
      if (entries.length : Int) < k then .error (.notEnoughPoints entries.length k)
      else
        let chosen := (jsSortByX entries).take k.toNat
        match lagrangeAtZero chosen with
        | .error e => .error e
        | .ok f0 => f0.toIntegerStringIfExact

/-- Reference rendering, digit-value level: big-endian base-`b` digits of
`n` (empty for `n = 0`); the fuel argument makes the recursion structural
and is chosen large enough below. -/
def refRenderAux (b : Nat) : Nat → Nat → List Nat
  | 0, _ => []
  | fuel + 1, n => if n = 0 then [] else refRenderAux b fuel (n / b) ++ [n % b]

/-- Digit value to character, lowercase: `0`-`9` then `a`-`z`. -/
def refDigitChar (d : Nat) : Char :=
  if d < 10 then Char.ofNat (48 + d) else Char.ofNat (87 + d)

/-- Digit value to character, uppercase: `0`-`9` then `A`-`Z`. -/
def refDigitCharUpper (d : Nat) : Char :=
  if d < 10 then Char.ofNat (48 + d) else Char.ofNat (55 + d)

/-- Reference base-`b` rendering of `n`, lowercase digits. -/
def refRender (b n : Nat) : String :=
  String.mk (if n = 0 then ['0'] else (refRenderAux b (n + 1) n).map refDigitChar)

/-- Reference base-`b` rendering of `n`, uppercase digits. -/
def refRenderUpper (b n : Nat) : String :=
  String.mk (if n = 0 then ['0'] else (refRenderAux b (n + 1) n).map refDigitCharUpper)

/-- The invariant the spec states for every constructed fraction: positive
denominator and coprime components. -/
def Fraction.reduced (f : Fraction) : Prop :=
  0 < f.den ∧ Int.gcd f.num f.den = 1

instance (f : Fraction) : Decidable f.reduced := by
  unfold Fraction.reduced; infer_instance

/-- The rational value a fraction denotes. -/
def Fraction.val (f : Fraction) : ℚ :=
  (f.num : ℚ) / (f.den : ℚ)

/-- Two positions of the point list carry the same `x`. -/
def hasDupX (pts : List (Int × Int)) : Prop :=
  ∃ i, i < pts.length ∧ ∃ j, j < pts.length ∧ i ≠ j ∧ ptX pts i = ptX pts j

/-- The fuel-driven Euclidean loop computes `Nat.gcd` once the fuel exceeds
the second argument. -/
theorem bigGcdAux_eq (fuel : Nat) : ∀ a b : Nat, b < fuel → bigGcdAux fuel a b = Nat.gcd b a := by
  induction fuel with
  | zero => intro a b h; omega
  | succ fuel ih =>
    intro a b h
    unfold bigGcdAux
    by_cases hb : b = 0
    · subst hb; simp
    · rw [if_neg hb, ih b (a % b) (lt_of_lt_of_le (Nat.mod_lt a (Nat.pos_of_ne_zero hb)) (by omega))]
      exact (Nat.gcd_rec b a).symm

/-- The embedded `bigGcd` agrees with the mathematical gcd. -/
theorem bigGcd_eq (a b : Int) : bigGcd a b = ↑(Int.gcd a b) := by
  unfold bigGcd
  rw [bigGcdAux_eq _ _ _ (by omega), Nat.gcd_comm]
  rfl

/-- Constructor specification: for a nonzero denominator the constructor
succeeds and returns a reduced fraction with the intended rational value. -/
theorem Fraction.make_spec (num den : Int) (hden : den ≠ 0) :
    ∃ f, Fraction.make num den = .ok f ∧ f.reduced ∧ f.val = (num : ℚ) / (den : ℚ) := by
  unfold Fraction.make
  rw [if_neg hden]
  set num' := if den < 0 then -num else num with hnum'
  set den' := if den < 0 then -den else den with hden'
  have hdpos : 0 < den' := by rw [hden']; split <;> omega
  have hvq : (num' : ℚ) / (den' : ℚ) = (num : ℚ) / (den : ℚ) := by
    rw [hnum', hden']
    split
    · push_cast; rw [neg_div_neg_eq]
    · rfl
  set gn := Int.gcd num' den' with hgn
  have hgpos : 0 < gn := Int.gcd_pos_iff.mpr (Or.inr (by omega))
  have hgz : (gn : Int) ≠ 0 := by exact_mod_cast hgpos.ne'
  obtain ⟨c, hc⟩ := Int.gcd_dvd_left (a := num') (b := den')
  obtain ⟨d, hd⟩ := Int.gcd_dvd_right (a := num') (b := den')
  rw [← hgn] at hc hd
  have htd1 : num'.tdiv (bigGcd num' den') = c := by
    rw [bigGcd_eq, ← hgn, hc]; exact Int.mul_tdiv_cancel_left _ hgz
  have htd2 : den'.tdiv (bigGcd num' den') = d := by
    rw [bigGcd_eq, ← hgn, hd]; exact Int.mul_tdiv_cancel_left _ hgz
  have hdpos' : 0 < d := by
    rcases lt_trichotomy d 0 with h | h | h
    · nlinarith [hd ▸ hdpos]
    · rw [h, mul_zero] at hd; omega
    · exact h
  refine ⟨⟨c, d⟩, by simp only [htd1, htd2], ⟨hdpos', ?_⟩, ?_⟩
  · have hmul : Int.gcd ((gn : Int) * c) ((gn : Int) * d) = (gn : Int).natAbs * Int.gcd c d :=
      Int.gcd_mul_left _ _ _
    rw [← hc, ← hd, ← hgn, Int.natAbs_ofNat] at hmul
    have : gn * Int.gcd c d = gn * 1 := by rw [mul_one, ← hmul]
    exact Nat.eq_of_mul_eq_mul_left hgpos this
  · show (c : ℚ) / (d : ℚ) = (num : ℚ) / (den : ℚ)
    rw [← hvq, hc, hd]
    push_cast
    rw [mul_div_mul_left _ _ (by exact_mod_cast hgz)]

/-- A successful construction forces a nonzero denominator argument. -/
theorem Fraction.make_den_ne (num den : Int) (f : Fraction)
    (h : Fraction.make num den = .ok f) : den ≠ 0 := by
  intro h0
  rw [h0] at h
  simp [Fraction.make] at h

/-- Whatever the constructor returns is reduced and has the intended value. -/
theorem Fraction.make_ok (num den : Int) (f : Fraction)
    (h : Fraction.make num den = .ok f) :
    f.reduced ∧ f.val = (num : ℚ) / (den : ℚ) := by
  obtain ⟨f', h', hr, hv⟩ := Fraction.make_spec num den (Fraction.make_den_ne num den f h)
  rw [h] at h'
  cases h'
  exact ⟨hr, hv⟩

/-- A reduced fraction has a nonzero (rational) denominator. -/
theorem Fraction.den_ne_zero {f : Fraction} (hf : f.reduced) : (f.den : ℚ) ≠ 0 := by
  exact_mod_cast hf.1.ne'

/-- `add` on reduced fractions succeeds, stays reduced, and adds values. -/
theorem Fraction.add_spec (a b : Fraction) (ha : a.reduced) (hb : b.reduced) :
    ∃ c, a.add b = .ok c ∧ c.reduced ∧ c.val = a.val + b.val := by
  obtain ⟨c, hmk, hr, hv⟩ :=
    Fraction.make_spec (a.num * b.den + b.num * a.den) (a.den * b.den)
      (mul_ne_zero ha.1.ne' hb.1.ne')
  refine ⟨c, hmk, hr, ?_⟩
  rw [hv]
  unfold Fraction.val
  have h1 := Fraction.den_ne_zero ha
  have h2 := Fraction.den_ne_zero hb
  field_simp

/-- `sub` on reduced fractions succeeds, stays reduced, and subtracts values. -/
theorem Fraction.sub_spec (a b : Fraction) (ha : a.reduced) (hb : b.reduced) :
    ∃ c, a.sub b = .ok c ∧ c.reduced ∧ c.val = a.val - b.val := by
  obtain ⟨c, hmk, hr, hv⟩ :=
    Fraction.make_spec (a.num * b.den - b.num * a.den) (a.den * b.den)
      (mul_ne_zero ha.1.ne' hb.1.ne')
  refine ⟨c, hmk, hr, ?_⟩
  rw [hv]
  unfold Fraction.val
  have h1 := Fraction.den_ne_zero ha
  have h2 := Fraction.den_ne_zero hb
  field_simp
  ring

/-- `mul` on reduced fractions succeeds, stays reduced, and multiplies values. -/
theorem Fraction.mul_spec (a b : Fraction) (ha : a.reduced) (hb : b.reduced) :
    ∃ c, a.mul b = .ok c ∧ c.reduced ∧ c.val = a.val * b.val := by
  obtain ⟨c, hmk, hr, hv⟩ :=
    Fraction.make_spec (a.num * b.num) (a.den * b.den)
      (mul_ne_zero ha.1.ne' hb.1.ne')
  refine ⟨c, hmk, hr, ?_⟩
  rw [hv]
  unfold Fraction.val
  push_cast
  rw [div_mul_div_comm]

/-- Whatever `div` returns is reduced (given reduced operands). -/
theorem Fraction.div_reduced (a b c : Fraction)
    (h : a.div b = .ok c) : c.reduced := by
  unfold Fraction.div at h
  by_cases hb0 : b.num = 0
  · rw [if_pos hb0] at h; cases h
  · rw [if_neg hb0] at h
    exact (Fraction.make_ok _ _ _ h).1

/-- The value of `⟨m, 1⟩` is `m`. -/
theorem Fraction.val_int (m : Int) : (Fraction.mk m 1).val = (m : ℚ) := by
  unfold Fraction.val
  simp

/-- A reduced fraction whose value is an integer is literally `⟨m, 1⟩`. -/
theorem Fraction.reduced_eq_int {f : Fraction} (hf : f.reduced) (m : Int)
    (hv : f.val = (m : ℚ)) : f = ⟨m, 1⟩ := by
  have hden : (f.den : ℚ) ≠ 0 := Fraction.den_ne_zero hf
  have hnum : f.num = m * f.den := by
    have : (f.num : ℚ) = (m : ℚ) * (f.den : ℚ) := by
      rw [← hv]; unfold Fraction.val; field_simp
    exact_mod_cast this
  have hdvd : f.den ∣ f.num := ⟨m, by rw [hnum, mul_comm]⟩
  have habs : f.den.natAbs ∣ f.num.natAbs := Int.natAbs_dvd_natAbs.mpr hdvd
  have hgd : f.den.natAbs ∣ Int.gcd f.num f.den :=
    Nat.dvd_gcd habs dvd_rfl
  rw [hf.2, Nat.dvd_one] at hgd
  have hden1 : f.den = 1 := by
    have := hf.1
    omega
  cases f
  simp only at hden1 hnum
  subst hden1
  simp only [mul_one] at hnum
  rw [hnum]

/-- `toIntegerStringIfExact` on a positive-denominator fraction: the exact
integer value when the denominator divides the numerator, and the
non-integer-result error (never a rounded value) otherwise. -/
theorem Fraction.toIntegerStringIfExact_spec (f : Fraction) (hden : f.den ≠ 0) :
    (∀ m : Int, f.num = f.den * m → f.toIntegerStringIfExact = .ok (toString m)) ∧
    ((∀ m : Int, f.num ≠ f.den * m) → f.toIntegerStringIfExact = .error (.nonIntegerResult f.toStr)) := by
  constructor
  · intro m hm
    unfold Fraction.toIntegerStringIfExact
    by_cases h1 : f.den = 1
    · rw [if_pos h1]
      rw [hm, h1, one_mul]
    · rw [if_neg h1]
      have hmod : f.num.tmod f.den = 0 := by
        rw [hm, mul_comm]
        exact Int.mul_tmod_left m f.den
      rw [if_pos hmod]
      have : f.num.tdiv f.den = m := by
        rw [hm]
        exact Int.mul_tdiv_cancel_left m hden
      rw [this]
  · intro hm
    unfold Fraction.toIntegerStringIfExact
    have h1 : f.den ≠ 1 := by
      intro h
      exact hm f.num (by rw [h, one_mul])
    rw [if_neg h1]
    have hmod : f.num.tmod f.den ≠ 0 := by
      intro h
      obtain ⟨m, hm'⟩ := Int.dvd_of_tmod_eq_zero h
      exact hm m hm'
    rw [if_neg hmod]

/-- The inner-loop term factor at indices `i`, `j`, as a rational. -/
def innerFactor (pts : List (Int × Int)) (i j : Nat) : ℚ :=
  (-(ptX pts j) : ℚ) / ((ptX pts i : ℚ) - (ptX pts j : ℚ))

/-- Inner loop, success case: when no remaining index duplicates `x_i`, the
loop returns a reduced fraction whose value multiplies the accumulator by
the corresponding product of factors. -/
theorem lagrangeInner_ok (pts : List (Int × Int)) (i : Nat) (js : List Nat)
    (numer : Fraction)
    (hnd : ∀ j ∈ js, j ≠ i → ptX pts i ≠ ptX pts j) (hred : numer.reduced) :
    ∃ r, lagrangeInner pts i js numer = .ok r ∧ r.reduced ∧
      r.val = numer.val * ((js.filter (fun j => j != i)).map (innerFactor pts i)).prod := by
  induction js generalizing numer with
  | nil => exact ⟨numer, rfl, hred, by simp⟩
  | cons j js ih =>
    by_cases hji : j = i
    · obtain ⟨r, h1, h2, h3⟩ :=
        ih numer (fun j' hj' hne => hnd j' (List.mem_cons_of_mem _ hj') hne) hred
      refine ⟨r, ?_, h2, ?_⟩
      · rw [← h1]
        simp only [lagrangeInner, if_pos hji]
      · rw [h3]
        simp [List.filter_cons, hji]
    · have hx : ptX pts i ≠ ptX pts j := hnd j (List.mem_cons_self _ _) hji
      have hdenom : ptX pts i - ptX pts j ≠ 0 := sub_ne_zero.mpr hx
      obtain ⟨fr, hfr, hfrred, hfrval⟩ :=
        Fraction.make_spec (-(ptX pts j)) (ptX pts i - ptX pts j) hdenom
      obtain ⟨numer', hmul, hred', hval'⟩ := Fraction.mul_spec numer fr hred hfrred
      obtain ⟨r, h1, h2, h3⟩ :=
        ih numer' (fun j' hj' hne => hnd j' (List.mem_cons_of_mem _ hj') hne) hred'
      refine ⟨r, ?_, h2, ?_⟩
      · simp only [lagrangeInner, if_neg hji, if_neg hdenom, hfr, hmul]
        exact h1
      · rw [h3, hval', hfrval]
        simp only [List.filter_cons, hji]
        have hne : (j != i) = true := by simp [hji]
        rw [hne]
        simp only [if_true, List.map_cons, List.prod_cons]
        unfold innerFactor
        push_cast
        ring

/-- Inner loop, duplicate case: when some remaining index `j ≠ i` has
`x_j = x_i`, the loop raises the duplicate-x error. -/
theorem lagrangeInner_dup (pts : List (Int × Int)) (i : Nat) (js : List Nat)
    (numer : Fraction) (hred : numer.reduced)
    (hdup : ∃ j ∈ js, j ≠ i ∧ ptX pts i = ptX pts j) :
    lagrangeInner pts i js numer = .error .duplicateXValues := by
  induction js generalizing numer with
  | nil => obtain ⟨j, hj, _⟩ := hdup; cases hj
  | cons j js ih =>
    obtain ⟨j', hj', hne', hx'⟩ := hdup
    by_cases hji : j = i
    · simp only [lagrangeInner, if_pos hji]
      refine ih numer hred ⟨j', ?_, hne', hx'⟩
      rcases List.mem_cons.mp hj' with h | h
      · exact absurd (h ▸ hji) hne'
      · exact h
    · by_cases hdenom : ptX pts i - ptX pts j = 0
      · simp only [lagrangeInner, if_neg hji, if_pos hdenom]
      · obtain ⟨fr, hfr, hfrred, -⟩ :=
          Fraction.make_spec (-(ptX pts j)) (ptX pts i - ptX pts j) hdenom
        obtain ⟨numer', hmul, hred', -⟩ := Fraction.mul_spec numer fr hred hfrred
        simp only [lagrangeInner, if_neg hji, if_neg hdenom, hfr, hmul]
        refine ih numer' hred' ⟨j', ?_, hne', hx'⟩
        rcases List.mem_cons.mp hj' with h | h
        · exact absurd (h ▸ hx') (sub_ne_zero.mp hdenom)
        · exact h

/-- The full term contributed by outer index `i`, as a rational. -/
def outerTerm (pts : List (Int × Int)) (i : Nat) : ℚ :=
  (ptY pts i : ℚ) *
    (((List.range pts.length).filter (fun j => j != i)).map (innerFactor pts i)).prod

/-- Outer loop, success case: with no duplicate `x` anywhere, the loop
returns a reduced fraction adding all the terms of the remaining indices to
the accumulator. -/
theorem lagrangeOuter_ok (pts : List (Int × Int)) (is : List Nat) (acc : Fraction)
    (hnd : ∀ i ∈ is, ∀ j ∈ List.range pts.length, j ≠ i → ptX pts i ≠ ptX pts j)
    (hred : acc.reduced) :
    ∃ r, lagrangeOuter pts is acc = .ok r ∧ r.reduced ∧
      r.val = acc.val + (is.map (outerTerm pts)).sum := by
  induction is generalizing acc with
  | nil => exact ⟨acc, rfl, hred, by simp⟩
  | cons i is ih =>
    obtain ⟨start, hstart, hstartred, hstartval⟩ :=
      Fraction.make_spec (ptY pts i) 1 one_ne_zero
    obtain ⟨term, hterm, htermred, htermval⟩ :=
      lagrangeInner_ok pts i (List.range pts.length) start
        (hnd i (List.mem_cons_self _ _)) hstartred
    obtain ⟨acc', hadd, hred', hval'⟩ := Fraction.add_spec acc term hred htermred
    obtain ⟨r, h1, h2, h3⟩ :=
      ih acc' (fun i' hi' => hnd i' (List.mem_cons_of_mem _ hi')) hred'
    refine ⟨r, ?_, h2, ?_⟩
    · simp only [lagrangeOuter, hstart, hterm, hadd]
      exact h1
    · rw [h3, hval', htermval, hstartval]
      simp only [List.map_cons, List.sum_cons]
      unfold outerTerm
      push_cast
      ring

/-- Outer loop, duplicate case: if any remaining outer index has a
duplicate partner among all indices, the loop raises the duplicate-x
error. -/
theorem lagrangeOuter_dup (pts : List (Int × Int)) (is : List Nat) (acc : Fraction)
    (hred : acc.reduced)
    (hdup : ∃ i ∈ is, ∃ j ∈ List.range pts.length, j ≠ i ∧ ptX pts i = ptX pts j) :
    lagrangeOuter pts is acc = .error .duplicateXValues := by
  induction is generalizing acc with
  | nil => obtain ⟨i, hi, _⟩ := hdup; cases hi
  | cons i is ih =>
    obtain ⟨start, hstart, hstartred, -⟩ :=
      Fraction.make_spec (ptY pts i) 1 one_ne_zero
    by_cases hhead : ∃ j ∈ List.range pts.length, j ≠ i ∧ ptX pts i = ptX pts j
    · have hinner := lagrangeInner_dup pts i (List.range pts.length) start hstartred hhead
      simp only [lagrangeOuter, hstart, hinner]
    · push_neg at hhead
      obtain ⟨term, hterm, htermred, -⟩ :=
        lagrangeInner_ok pts i (List.range pts.length) start hhead hstartred
      obtain ⟨acc', hadd, hred', -⟩ := Fraction.add_spec acc term hred htermred
      simp only [lagrangeOuter, hstart, hterm, hadd]
      obtain ⟨i', hi', hrest⟩ := hdup
      rcases List.mem_cons.mp hi' with h | h
      · subst h
        obtain ⟨j, hj, hne, hx⟩ := hrest
        exact absurd hx (hhead j hj hne)
      · exact ih acc' hred' ⟨i', h, hrest⟩

/-- The zero fraction used to start the outer loop is reduced. -/
theorem zero_fraction_reduced : Fraction.reduced ⟨0, 1⟩ := by decide

/-- `lagrangeAtZero`, success case: with pairwise distinct `x` values the
function returns a reduced fraction whose value is the Lagrange sum. -/
theorem lagrangeAtZero_ok (pts : List (Int × Int)) (hnd : ¬ hasDupX pts) :
    ∃ r, lagrangeAtZero pts = .ok r ∧ r.reduced ∧
      r.val = ((List.range pts.length).map (outerTerm pts)).sum := by
  unfold hasDupX at hnd
  push_neg at hnd
  obtain ⟨r, h1, h2, h3⟩ :=
    lagrangeOuter_ok pts (List.range pts.length) ⟨0, 1⟩
      (fun i hi j hj hne =>
        hnd i (List.mem_range.mp hi) j (List.mem_range.mp hj) (Ne.symm hne))
      zero_fraction_reduced
  have hmk : Fraction.make 0 1 = .ok ⟨0, 1⟩ := by decide
  refine ⟨r, ?_, h2, ?_⟩
  · simp only [lagrangeAtZero, hmk]
    exact h1
  · rw [h3]
    have : Fraction.val ⟨0, 1⟩ = 0 := by
      unfold Fraction.val; simp
    rw [this, zero_add]

/-- `lagrangeAtZero`, duplicate case: a duplicated `x` raises the
duplicate-x error. -/
theorem lagrangeAtZero_dup (pts : List (Int × Int)) (hdup : hasDupX pts) :
    lagrangeAtZero pts = .error .duplicateXValues := by
  obtain ⟨i, hi, j, hj, hne, hx⟩ := hdup
  have hmk : Fraction.make 0 1 = .ok ⟨0, 1⟩ := by decide
  simp only [lagrangeAtZero, hmk]
  exact lagrangeOuter_dup pts (List.range pts.length) ⟨0, 1⟩ zero_fraction_reduced
    ⟨i, List.mem_range.mpr hi, j, List.mem_range.mpr hj, Ne.symm hne, hx⟩

/-- C5: `lagrangeAtZero` raises the duplicate-x error exactly when two
positions share an `x` value, and returns a fraction whenever the `x`
values are pairwise distinct. -/
theorem lagrangeAtZero_duplicate_iff (pts : List (Int × Int)) :
    (lagrangeAtZero pts = .error .duplicateXValues ↔ hasDupX pts) ∧
    (¬ hasDupX pts → ∃ f, lagrangeAtZero pts = .ok f) := by
  constructor
  · constructor
    · intro h
      by_contra hnd
      obtain ⟨r, hr, -, -⟩ := lagrangeAtZero_ok pts hnd
      rw [h] at hr
      cases hr
    · exact lagrangeAtZero_dup pts
  · intro hnd
    obtain ⟨r, hr, -, -⟩ := lagrangeAtZero_ok pts hnd
    exact ⟨r, hr⟩

/-- C5 witness: a duplicated `x` pair raises the error, a distinct pair
yields a fraction. -/
theorem lagrangeAtZero_duplicate_iff_witness :
    lagrangeAtZero [(1, 4), (1, 5)] = .error .duplicateXValues ∧
    ∃ f, lagrangeAtZero [(1, 4), (2, 7)] = .ok f := by
  constructor
  · exact (lagrangeAtZero_duplicate_iff [(1, 4), (1, 5)]).1.mpr
      ⟨0, by decide, 1, by decide, by decide, by decide⟩
  · refine (lagrangeAtZero_duplicate_iff [(1, 4), (2, 7)]).2 ?_
    rintro ⟨i, hi, j, hj, hne, hx⟩
    simp only [List.length_cons, List.length_nil] at hi hj
    interval_cases i <;> interval_cases j <;> revert hne hx <;> decide

/-- C10: on the empty point list `lagrangeAtZero` returns the zero
fraction `0/1` rather than failing. -/
theorem lagrangeAtZero_empty : lagrangeAtZero [] = .ok ⟨0, 1⟩ := by decide

/-- `List.range` as a `Finset`. -/
theorem listRange_toFinset (n : Nat) : (List.range n).toFinset = Finset.range n := by
  ext x
  simp [List.mem_toFinset, List.mem_range, Finset.mem_range]

/-- Sums over `List.range` are `Finset.range` sums. -/
theorem sum_map_range (n : Nat) (f : Nat → ℚ) :
    ((List.range n).map f).sum = ∑ i ∈ Finset.range n, f i := by
  rw [← List.sum_toFinset f (List.nodup_range n), listRange_toFinset]

/-- Products over the filtered `List.range` are products over the erased
`Finset.range`. -/
theorem prod_map_range_filter (n i : Nat) (f : Nat → ℚ) :
    (((List.range n).filter (fun j => j != i)).map f).prod =
      ∏ j ∈ (Finset.range n).erase i, f j := by
  rw [← List.prod_toFinset f ((List.nodup_range n).filter _), List.toFinset_filter,
    listRange_toFinset]
  congr 1
  ext x
  simp [Finset.mem_filter, Finset.mem_erase, and_comm]

open Polynomial in
/-- Evaluating a polynomial of degree `< k` at `0` via the Lagrange
interpolation formula on `k` distinct nodes. -/
theorem eval_zero_eq_lagrange_sum (k : Nat) (ξ : Nat → ℚ)
    (hinj : Set.InjOn ξ (Finset.range k)) (q : ℚ[X]) (hdeg : q.degree < k) :
    q.eval 0 =
      ∑ i ∈ Finset.range k, q.eval (ξ i) *
        ∏ j ∈ (Finset.range k).erase i, (-(ξ j)) / (ξ i - ξ j) := by
  have hdeg' : q.degree < (Finset.range k).card := by
    rwa [Finset.card_range]
  conv_lhs => rw [Lagrange.eq_interpolate hinj hdeg']
  rw [Lagrange.interpolate_apply, eval_finset_sum]
  refine Finset.sum_congr rfl fun i _ => ?_
  rw [eval_mul, eval_C]
  congr 1
  rw [Lagrange.basis, eval_prod]
  refine Finset.prod_congr rfl fun j _ => ?_
  rw [Lagrange.basisDivisor, eval_mul, eval_C, eval_sub, eval_X, eval_C]
  rw [div_eq_mul_inv, zero_sub, mul_comm]

open Polynomial in
/-- C1: on `k ≥ 1` points with pairwise distinct `x` values whose `y`
values all lie on the integer-coefficient polynomial with coefficients
`c 0, …, c (k-1)` (degree at most `k − 1`), `lagrangeAtZero` returns a
fraction from which `toIntegerStringIfExact` extracts exactly the decimal
string of the constant term `c 0`. -/
theorem lagrangeAtZero_recovers_constant (pts : List (Int × Int)) (c : Nat → Int)
    (hk : 0 < pts.length)
    (hdist : ∀ i, i < pts.length → ∀ j, j < pts.length → i ≠ j → ptX pts i ≠ ptX pts j)
    (hy : ∀ i, i < pts.length →
      ptY pts i = ∑ m ∈ Finset.range pts.length, c m * (ptX pts i) ^ m) :
    ∃ f, lagrangeAtZero pts = .ok f ∧
      f.toIntegerStringIfExact = .ok (toString (c 0)) := by
  set k := pts.length with hkdef
  have hnd : ¬ hasDupX pts := by
    rintro ⟨i, hi, j, hj, hne, hx⟩
    exact hdist i hi j hj hne hx
  obtain ⟨r, hok, hred, hval⟩ := lagrangeAtZero_ok pts hnd
  set ξ : Nat → ℚ := fun i => ((ptX pts i : Int) : ℚ) with hξ
  set q : ℚ[X] := ∑ m ∈ Finset.range k, C ((c m : Int) : ℚ) * X ^ m with hq
  have heval : ∀ t : ℚ, q.eval t = ∑ m ∈ Finset.range k, ((c m : Int) : ℚ) * t ^ m := by
    intro t
    rw [hq, eval_finset_sum]
    simp
  have hinj : Set.InjOn ξ (Finset.range k) := by
    intro i hi j hj hxy
    simp only [Finset.coe_range, Set.mem_Iio] at hi hj
    by_contra hne
    have hxy' : ((ptX pts i : Int) : ℚ) = ((ptX pts j : Int) : ℚ) := hxy
    exact hdist i hi j hj hne (by exact_mod_cast hxy')
  have hdeg : q.degree < k := by
    rw [hq]
    refine lt_of_le_of_lt (degree_sum_le _ _) ?_
    rw [Finset.sup_lt_iff (by exact_mod_cast WithBot.bot_lt_coe k)]
    intro m hm
    refine lt_of_le_of_lt (degree_C_mul_X_pow_le m _) ?_
    exact_mod_cast Finset.mem_range.mp hm
  have hnode : ∀ i ∈ Finset.range k, q.eval (ξ i) = ((ptY pts i : Int) : ℚ) := by
    intro i hi
    rw [heval, hy i (Finset.mem_range.mp hi)]
    push_cast
    rfl
  have hconst : q.eval 0 = ((c 0 : Int) : ℚ) := by
    rw [heval, Finset.sum_eq_single 0]
    · simp
    · intro m _ hne
      rw [zero_pow hne, mul_zero]
    · intro h
      exact absurd (Finset.mem_range.mpr hk) h
  have hvq : r.val = ((c 0 : Int) : ℚ) := by
    rw [hval, sum_map_range]
    rw [← hconst, eval_zero_eq_lagrange_sum k ξ hinj q hdeg]
    refine Finset.sum_congr rfl fun i hi => ?_
    rw [hnode i hi]
    unfold outerTerm
    rw [prod_map_range_filter]
    rfl
  have hr : r = ⟨c 0, 1⟩ := Fraction.reduced_eq_int hred (c 0) hvq
  refine ⟨r, hok, ?_⟩
  rw [hr]
  unfold Fraction.toIntegerStringIfExact
  rw [if_pos rfl]

/-- C1 witness: the three points `(1,4), (2,7), (3,12)` lie on `x² + 3`,
and the pipeline extracts the constant term `3`. -/
theorem lagrangeAtZero_recovers_constant_witness :
    ∃ f, lagrangeAtZero [(1, 4), (2, 7), (3, 12)] = .ok f ∧
      f.toIntegerStringIfExact = .ok (toString (3 : Int)) :=
  lagrangeAtZero_recovers_constant [(1, 4), (2, 7), (3, 12)]
    (fun m => if m = 0 then 3 else if m = 2 then 1 else 0)
    (by decide)
    (by decide)
    (by decide)

/-- C2: every fraction produced by the constructor is reduced (positive
denominator, coprime components, zero stored as `0/1`), and on reduced
operands `add`, `sub`, `mul` succeed with reduced results while `div`
returns only reduced results. -/
theorem fraction_invariant :
    (∀ num den : Int, ∀ f : Fraction, Fraction.make num den = .ok f →
      0 < f.den ∧ Int.gcd f.num f.den = 1 ∧ (f.num = 0 → f = ⟨0, 1⟩)) ∧
    (∀ a b : Fraction, a.reduced → b.reduced →
      (∃ c, a.add b = .ok c ∧ c.reduced) ∧
      (∃ c, a.sub b = .ok c ∧ c.reduced) ∧
      (∃ c, a.mul b = .ok c ∧ c.reduced) ∧
      (∀ c, a.div b = .ok c → c.reduced)) := by
  constructor
  · intro num den f h
    obtain ⟨hred, -⟩ := Fraction.make_ok num den f h
    refine ⟨hred.1, hred.2, fun h0 => ?_⟩
    refine Fraction.reduced_eq_int hred 0 ?_
    unfold Fraction.val
    rw [h0]
    simp
  · intro a b ha hb
    refine ⟨?_, ?_, ?_, fun cc hc => Fraction.div_reduced a b cc hc⟩
    · obtain ⟨cc, h1, h2, -⟩ := Fraction.add_spec a b ha hb
      exact ⟨cc, h1, h2⟩
    · obtain ⟨cc, h1, h2, -⟩ := Fraction.sub_spec a b ha hb
      exact ⟨cc, h1, h2⟩
    · obtain ⟨cc, h1, h2, -⟩ := Fraction.mul_spec a b ha hb
      exact ⟨cc, h1, h2⟩

/-- C2 witness: `Fraction(6, -4)` normalizes to the reduced `-3/2`, and
adding `-3/2` and `1/2` succeeds with a reduced result. -/
theorem fraction_invariant_witness :
    (0 < (Fraction.mk (-3) 2).den ∧
      Int.gcd (Fraction.mk (-3) 2).num (Fraction.mk (-3) 2).den = 1 ∧
      ((Fraction.mk (-3) 2).num = 0 → Fraction.mk (-3) 2 = ⟨0, 1⟩)) ∧
    (∃ c, Fraction.add ⟨-3, 2⟩ ⟨1, 2⟩ = .ok c ∧ c.reduced) :=
  ⟨fraction_invariant.1 6 (-4) ⟨-3, 2⟩ (by decide),
   (fraction_invariant.2 ⟨-3, 2⟩ ⟨1, 2⟩ (by decide) (by decide)).1⟩

/-- C4 witness: `6/2` extracts to `"3"`, while `7/2` raises the
non-integer-result error carrying its own rendering. -/
theorem toIntegerStringIfExact_spec_witness :
    Fraction.toIntegerStringIfExact ⟨6, 2⟩ = .ok (toString (3 : Int)) ∧
    Fraction.toIntegerStringIfExact ⟨7, 2⟩ =
      .error (.nonIntegerResult (Fraction.toStr ⟨7, 2⟩)) :=
  ⟨(Fraction.toIntegerStringIfExact_spec ⟨6, 2⟩ (by decide)).1 3 (by decide),
   (Fraction.toIntegerStringIfExact_spec ⟨7, 2⟩ (by decide)).2
     (by intro m; show (7 : Int) ≠ 2 * m; omega)⟩

/-- C6: when fewer than `k` points are collected, the pipeline stops with
the insufficient-points error (whatever the declared `n`), and the declared
`n` never influences the outcome at all. -/
theorem mainCompute_insufficient :
    (∀ n k : Int, ∀ raw : List (Int × Option RawObj), ∀ pts : List (Int × Int),
      0 < k → collectEntries raw = .ok pts → (pts.length : Int) < k →
      mainCompute n k raw = .error (.notEnoughPoints pts.length k)) ∧
    (∀ n n' k : Int, ∀ raw : List (Int × Option RawObj),
      mainCompute n k raw = mainCompute n' k raw) := by
  constructor
  · intro n k raw pts hk hc hlt
    unfold mainCompute
    rw [if_neg (not_le.mpr hk)]
    simp only [hc]
    rw [if_pos hlt]
  · intro n n' k raw
    rfl

/-- C6 witness: one collected point against `k = 2` yields the
insufficient-points error. -/
theorem mainCompute_insufficient_witness :
    mainCompute 7 2 [(1, some ⟨some 10, some "4"⟩)] = .error (.notEnoughPoints 1 2) :=
  mainCompute_insufficient.1 7 2 [(1, some ⟨some 10, some "4"⟩)] [(1, 4)]
    (by decide) (by decide) (by decide)

/-- C7: scenario B — the four entries decode to `(1,4), (2,7), (3,12),
(6,39)`, the ascending-`x` sort followed by taking the first three selects
`(1,4), (2,7), (3,12)`, and the pipeline outputs exactly `"3"`. -/
theorem mainCompute_scenarioB :
    collectEntries [(1, some ⟨some 10, some "4"⟩), (2, some ⟨some 2, some "111"⟩),
        (3, some ⟨some 10, some "12"⟩), (6, some ⟨some 4, some "213"⟩)] =
      .ok [(1, 4), (2, 7), (3, 12), (6, 39)] ∧
    (jsSortByX [(1, 4), (2, 7), (3, 12), (6, 39)]).take 3 = [(1, 4), (2, 7), (3, 12)] ∧
    mainCompute 4 3 [(1, some ⟨some 10, some "4"⟩), (2, some ⟨some 2, some "111"⟩),
        (3, some ⟨some 10, some "12"⟩), (6, some ⟨some 4, some "213"⟩)] = .ok "3" := by
  exact ⟨by decide, by decide, by decide⟩

/-- C8 counterexample: at base 10 the decoder maps the empty string to
`.ok 0` instead of failing. -/
theorem decode_empty_counterexample : decodeValueToBigInt "" 10 = .ok 0 := by decide

/-- C8 amended: for every base in `[2, 36]`, a value string that is empty
after trimming decodes silently to zero (no error is raised). -/
theorem decode_empty_returns_zero (base : Int) (s : String)
    (hb2 : 2 ≤ base) (hb36 : base ≤ 36) (hs : jsTrim s.toList = []) :
    decodeValueToBigInt s base = .ok 0 := by
  unfold decodeValueToBigInt
  rw [if_neg (not_not_intro ⟨hb2, hb36⟩)]
  show decodeDigits base (jsToLower (jsTrim s.toList)) 0 = .ok 0
  rw [hs]
  rfl

/-- C8 witness: a whitespace-only string at base 10 decodes to zero. -/
theorem decode_empty_returns_zero_witness : decodeValueToBigInt "  " 10 = .ok 0 :=
  decode_empty_returns_zero 10 "  " (by decide) (by decide) (by decide)

/-- C9 counterexample: an entry with a `base` field but no `value` field
does not lack both fields, yet the collection loop silently skips it. -/
theorem processEntry_skip_counterexample :
    processEntry 1 (some ⟨some 10, none⟩) = .ok none ∧
    ¬((RawObj.mk (some 10) none).base = none ∧ (RawObj.mk (some 10) none).value = none) :=
  ⟨by decide, by decide⟩

/-- C9 amended: an entry is silently skipped exactly when it is not an
object or lacks the `base` field or lacks the `value` field; an entry with
both fields is decoded into a point (or propagates a decode error). -/
theorem processEntry_skip_iff :
    (∀ x : Int, processEntry x none = .ok none) ∧
    (∀ x : Int, ∀ o : RawObj, processEntry x (some o) = .ok none ↔
      (o.base = none ∨ o.value = none)) ∧
    (∀ x : Int, ∀ b : Int, ∀ v : String,
      processEntry x (some ⟨some b, some v⟩) =
        match decodeValueToBigInt v b with
        | .error e => .error e
        | .ok y => .ok (some (x, y))) := by
  refine ⟨fun x => rfl, ?_, fun x b v => rfl⟩
  intro x o
  rcases o with ⟨ob, ov⟩
  cases ob with
  | none => simp [processEntry]
  | some b =>
    cases ov with
    | none => simp [processEntry]
    | some v =>
      simp only [processEntry]
      constructor
      · intro h
        cases hdec : decodeValueToBigInt v b with
        | error e => rw [hdec] at h; cases h
        | ok y => rw [hdec] at h; simp at h
      · rintro (h | h) <;> simp at h

/-- C9 witness: a concrete entry with `base` present and `value` absent is
skipped. -/
theorem processEntry_skip_iff_witness :
    processEntry 5 (some ⟨some 10, none⟩) = .ok none :=
  (processEntry_skip_iff.2.1 5 ⟨some 10, none⟩).mpr (Or.inr rfl)

/-- Lowercase digit characters are fixed by `toLower`. -/
theorem refDigitChar_toLower (d : Nat) (hd : d < 36) :
    Char.toLower (refDigitChar d) = refDigitChar d := by
  interval_cases d <;> decide

/-- Uppercase digit characters lower to the lowercase ones. -/
theorem refDigitCharUpper_toLower (d : Nat) (hd : d < 36) :
    Char.toLower (refDigitCharUpper d) = refDigitChar d := by
  interval_cases d <;> decide

/-- Digit characters are not whitespace. -/
theorem refDigitChar_not_ws (d : Nat) (hd : d < 36) :
    isJsWhitespace (refDigitChar d) = false := by
  interval_cases d <;> decide

/-- Uppercase digit characters are not whitespace. -/
theorem refDigitCharUpper_not_ws (d : Nat) (hd : d < 36) :
    isJsWhitespace (refDigitCharUpper d) = false := by
  interval_cases d <;> decide

/-- Code point of a lowercase digit character. -/
theorem refDigitChar_toNat (d : Nat) (hd : d < 36) :
    (refDigitChar d).toNat = if d < 10 then 48 + d else 87 + d := by
  interval_cases d <;> decide

/-- Range classification of a small lowercase digit character. -/
theorem refDigitChar_digit_range (d : Nat) (hd : d < 10) :
    '0' ≤ refDigitChar d ∧ refDigitChar d ≤ '9' := by
  interval_cases d <;> decide

/-- Range classification of a letter digit character. -/
theorem refDigitChar_letter_range (d : Nat) (h10 : 10 ≤ d) (hd : d < 36) :
    ¬('0' ≤ refDigitChar d ∧ refDigitChar d ≤ '9') ∧
      ('a' ≤ refDigitChar d ∧ refDigitChar d ≤ 'z') := by
  interval_cases d <;> decide

/-- One decode step on a rendered digit character accumulates
`acc * base + d`. -/
theorem decodeDigits_digit (base : Int) (d : Nat) (rest : List Char) (acc : Int)
    (hd : d < 36) (hdb : (d : Int) < base) :
    decodeDigits base (refDigitChar d :: rest) acc =
      decodeDigits base rest (acc * base + d) := by
  by_cases hd10 : d < 10
  · have h1 := refDigitChar_digit_range d hd10
    have htn : ((refDigitChar d).toNat : Int) - 48 = (d : Int) := by
      rw [refDigitChar_toNat d hd, if_pos hd10]
      push_cast
      ring
    simp only [decodeDigits, if_pos h1, htn]
    rw [if_neg (not_le.mpr hdb)]
  · have h1 := refDigitChar_letter_range d (by omega) hd
    have htn : ((refDigitChar d).toNat : Int) - 87 = (d : Int) := by
      rw [refDigitChar_toNat d hd, if_neg hd10]
      push_cast
      ring
    simp only [decodeDigits, if_neg h1.1, if_pos h1.2, htn]
    rw [if_neg (not_le.mpr hdb)]

/-- Decoding a list of rendered digit characters computes the base-`base`
accumulation fold. -/
theorem decodeDigits_map (base : Int) (hb : base ≤ 36) :
    ∀ (ds : List Nat) (acc : Int), (∀ d ∈ ds, (d : Int) < base) →
      decodeDigits base (ds.map refDigitChar) acc =
        .ok (ds.foldl (fun (a : Int) (d : Nat) => a * base + d) acc) := by
  intro ds
  induction ds with
  | nil => intro acc _; rfl
  | cons d ds ih =>
    intro acc hds
    have hd36 : d < 36 := by
      have := hds d (List.mem_cons_self _ _)
      omega
    rw [List.map_cons,
      decodeDigits_digit base d _ acc hd36 (hds d (List.mem_cons_self _ _)),
      List.foldl_cons]
    exact ih _ (fun d' hd' => hds d' (List.mem_cons_of_mem _ hd'))

/-- Every digit value produced by the reference renderer is `< b`. -/
theorem refRenderAux_lt (b : Nat) (hb : 2 ≤ b) :
    ∀ (fuel n : Nat), ∀ d ∈ refRenderAux b fuel n, d < b := by
  intro fuel
  induction fuel with
  | zero => intro n d hd; cases hd
  | succ fuel ih =>
    intro n d hd
    unfold refRenderAux at hd
    by_cases hn : n = 0
    · rw [if_pos hn] at hd; cases hd
    · rw [if_neg hn] at hd
      rcases List.mem_append.mp hd with h | h
      · exact ih _ d h
      · rcases List.mem_singleton.mp h with rfl
        exact Nat.mod_lt n (by omega)

/-- The accumulation fold over the rendered digits of `n` recovers `n`. -/
theorem refRenderAux_foldl (b : Nat) (hb : 2 ≤ b) :
    ∀ (fuel n : Nat) (acc : Int), n ≤ fuel →
      (refRenderAux b fuel n).foldl (fun (a : Int) (d : Nat) => a * (b : Int) + d) acc =
        acc * (b : Int) ^ (refRenderAux b fuel n).length + n := by
  intro fuel
  induction fuel with
  | zero =>
    intro n acc hn
    have : n = 0 := by omega
    subst this
    simp [refRenderAux]
  | succ fuel ih =>
    intro n acc hn
    by_cases hn0 : n = 0
    · subst hn0
      simp [refRenderAux]
    · have hrec : n / b ≤ fuel := by
        have h1 : n / b ≤ n / 2 := Nat.div_le_div_left hb (by omega)
        have h2 : n / 2 < n := Nat.div_lt_self (by omega) (by omega)
        omega
      show (refRenderAux b (fuel + 1) n).foldl _ acc = _
      rw [show refRenderAux b (fuel + 1) n =
          refRenderAux b fuel (n / b) ++ [n % b] from by
        conv_lhs => rw [refRenderAux]
        rw [if_neg hn0]]
      rw [List.foldl_append, ih (n / b) acc hrec]
      have hN : n / b * b + n % b = n := by
        rw [mul_comm]
        exact Nat.div_add_mod n b
      have h2 : ((n / b : Nat) : Int) * (b : Int) + ((n % b : Nat) : Int) = (n : Int) := by
        exact_mod_cast hN
      simp only [List.foldl_cons, List.foldl_nil, List.length_append, List.length_cons,
        List.length_nil]
      calc (acc * (b : Int) ^ (refRenderAux b fuel (n / b)).length + ↑(n / b)) * (b : Int)
            + ↑(n % b)
          = acc * ((b : Int) ^ (refRenderAux b fuel (n / b)).length * (b : Int)) +
              (↑(n / b) * (b : Int) + ↑(n % b)) := by ring
        _ = acc * (b : Int) ^ ((refRenderAux b fuel (n / b)).length + 1) + (n : Int) := by
              rw [h2, pow_succ]

/-- `dropWhile` is the identity on lists without whitespace. -/
theorem dropWhile_ws_eq_self {l : List Char} (h : ∀ c ∈ l, isJsWhitespace c = false) :
    l.dropWhile isJsWhitespace = l := by
  cases l with
  | nil => rfl
  | cons a l =>
    rw [List.dropWhile_cons, h a (List.mem_cons_self _ _)]
    simp

/-- `jsTrim` is the identity on strings without whitespace characters. -/
theorem jsTrim_eq_self {l : List Char} (h : ∀ c ∈ l, isJsWhitespace c = false) :
    jsTrim l = l := by
  unfold jsTrim
  rw [dropWhile_ws_eq_self h,
    dropWhile_ws_eq_self (fun c hc => h c (List.mem_reverse.mp hc)),
    List.reverse_reverse]

/-- Decoding a digit-value list rendered through any digit-character map
that lowercases to the reference characters. -/
theorem decode_digitList (b : Nat) (hb2 : 2 ≤ b) (hb36 : b ≤ 36) (ds : List Nat)
    (hds : ∀ d ∈ ds, d < b) (dchar : Nat → Char)
    (hlower : ∀ d, d < 36 → Char.toLower (dchar d) = refDigitChar d)
    (hws : ∀ d, d < 36 → isJsWhitespace (dchar d) = false) :
    decodeValueToBigInt (String.mk (ds.map dchar)) (b : Int) =
      .ok (ds.foldl (fun (a : Int) (d : Nat) => a * (b : Int) + d) 0) := by
  have hd36 : ∀ d ∈ ds, d < 36 := fun d hd => lt_of_lt_of_le (hds d hd) hb36
  unfold decodeValueToBigInt
  rw [if_neg (not_not_intro ⟨by exact_mod_cast hb2, by exact_mod_cast hb36⟩)]
  show decodeDigits (b : Int) (jsToLower (jsTrim (String.mk (ds.map dchar)).toList)) 0 = _
  have htl : (String.mk (ds.map dchar)).toList = ds.map dchar := rfl
  rw [htl, jsTrim_eq_self (by
    intro c hc
    obtain ⟨d, hd, rfl⟩ := List.mem_map.mp hc
    exact hws d (hd36 d hd))]
  have hlow : jsToLower (ds.map dchar) = ds.map refDigitChar := by
    unfold jsToLower
    rw [List.map_map]
    exact List.map_congr_left (fun d hd => hlower d (hd36 d hd))
  rw [hlow]
  exact decodeDigits_map (b : Int) (by exact_mod_cast hb36) ds 0
    (fun d hd => by exact_mod_cast hds d hd)

/-- The lowercase renderer is the reference digit map over the digit list. -/
theorem refRender_eq (b n : Nat) :
    refRender b n =
      String.mk ((if n = 0 then [0] else refRenderAux b (n + 1) n).map refDigitChar) := by
  unfold refRender
  by_cases hn : n = 0
  · rw [if_pos hn, if_pos hn]
    decide
  · rw [if_neg hn, if_neg hn]

/-- The uppercase renderer is the uppercase digit map over the digit list. -/
theorem refRenderUpper_eq (b n : Nat) :
    refRenderUpper b n =
      String.mk ((if n = 0 then [0] else refRenderAux b (n + 1) n).map refDigitCharUpper) := by
  unfold refRenderUpper
  by_cases hn : n = 0
  · rw [if_pos hn, if_pos hn]
    decide
  · rw [if_neg hn, if_neg hn]

/-- C3: for every base `b ∈ [2, 36]` and every `n`, decoding the base-`b`
rendering of `n` — in lowercase or uppercase digits — returns exactly `n`. -/
theorem decode_render_roundTrip (b n : Nat) (hb2 : 2 ≤ b) (hb36 : b ≤ 36) :
    decodeValueToBigInt (refRender b n) (b : Int) = .ok (n : Int) ∧
    decodeValueToBigInt (refRenderUpper b n) (b : Int) = .ok (n : Int) := by
  have hds : ∀ d ∈ (if n = 0 then [0] else refRenderAux b (n + 1) n), d < b := by
    by_cases hn : n = 0
    · rw [if_pos hn]
      intro d hd
      rcases List.mem_singleton.mp hd with rfl
      omega
    · rw [if_neg hn]
      exact refRenderAux_lt b hb2 (n + 1) n
  have hfold : (if n = 0 then [0] else refRenderAux b (n + 1) n).foldl
      (fun (a : Int) (d : Nat) => a * (b : Int) + d) 0 = (n : Int) := by
    by_cases hn : n = 0
    · subst hn
      simp
    · rw [if_neg hn, refRenderAux_foldl b hb2 (n + 1) n 0 (by omega)]
      simp
  constructor
  · rw [refRender_eq,
      decode_digitList b hb2 hb36 _ hds refDigitChar refDigitChar_toLower refDigitChar_not_ws,
      hfold]
  · rw [refRenderUpper_eq,
      decode_digitList b hb2 hb36 _ hds refDigitCharUpper refDigitCharUpper_toLower
        refDigitCharUpper_not_ws,
      hfold]

/-- C3 witness: `255` renders at base 16 as `"ff"` / `"FF"` and both decode
back to `255`. -/
theorem decode_render_roundTrip_witness :
    decodeValueToBigInt (refRender 16 255) (16 : Int) = .ok 255 ∧
    decodeValueToBigInt (refRenderUpper 16 255) (16 : Int) = .ok 255 :=
  decode_render_roundTrip 16 255 (by decide) (by decide)
